import Mathlib

/-!
Shallow embedding of `demo/yuanjian.py`: a multiprocessing batch driver that
feeds PDF files to the magic_pdf document-analysis pipeline, collects the
per-file artifacts, and tracks finished inputs in a persisted JSON ledger
(`processed_files.json`).

Modelling conventions:
* machine state is an explicit `FS` record (ledger file, written output files,
  printed lines); the worker and the batch loop thread it explicitly;
* the magic_pdf calls (`FileBasedDataReader.read`, `PymuDocDataset.classify`,
  `doc_analyze`, `pipe_ocr_mode` / `pipe_txt_mode` and the artifact dumps) are
  code of this repository that is not under `src/`; they are modelled from the
  spec as an oracle environment `Env` whose fallible steps return
  `Except String _` (an exception is an `error`);
* the process pool's unordered completion collection is modelled by running
  the dispatched tasks sequentially in an arbitrary completion order `sched`
  (the controlling process handles completions one at a time, and theorems
  assume `sched` yields a permutation of the submitted tasks);
* the input directory is a static listing (`disk`), unchanged during a run.
-/

deriving instance DecidableEq for Except

namespace Yuanjian

/-- File contents, as a byte list. -/
abbrev Bytes := List Nat

/-- A filesystem path: the directory part and the final component
(`pathlib.Path` is used only through `.parent`-relative enumeration,
`.name` and `.stem`). -/
structure PathT where
  parent : String
  name : String
deriving DecidableEq, Repr

/-- `os.path.join` on POSIX for a relative final component. -/
def osJoin (a b : String) : String := a ++ "/" ++ b

/-- Python string comparison, lexicographic by code point, on the
character lists. -/
def charListLe : List Char → List Char → Bool
  | [], _ => true
  | _ :: _, [] => false
  | a :: as, b :: bs =>
    if a < b then true
    else if b < a then false
    else charListLe as bs

/-- Python `<=` on strings (the order `sorted` uses). -/
def strLe (a b : String) : Prop := charListLe a.data b.data = true

instance : DecidableRel strLe := fun a b =>
  inferInstanceAs (Decidable (charListLe a.data b.data = true))

theorem charListLe_total : ∀ as bs, charListLe as bs = true ∨ charListLe bs as = true
  | [], _ => by left; rfl
  | _ :: _, [] => by right; rfl
  | a :: as, b :: bs => by
    rcases lt_trichotomy a b with h | h | h
    · left; simp [charListLe, h]
    · subst h
      rcases charListLe_total as bs with ih | ih
      · left; simp [charListLe, ih]
      · right; simp [charListLe, ih]
    · right; simp [charListLe, h]

theorem charListLe_antisymm : ∀ as bs, charListLe as bs = true → charListLe bs as = true →
    as = bs
  | [], [] => by intro _ _; rfl
  | [], _ :: _ => by intro _ h; cases h
  | _ :: _, [] => by intro h _; cases h
  | a :: as, b :: bs => by
    intro h₁ h₂
    rcases lt_trichotomy a b with h | h | h
    · simp [charListLe, h, lt_asymm h] at h₂
    · subst h
      simp only [charListLe, lt_irrefl, if_false] at h₁ h₂
      exact congrArg (a :: ·) (charListLe_antisymm as bs h₁ h₂)
    · simp [charListLe, h, lt_asymm h] at h₁

theorem charListLe_trans : ∀ as bs cs, charListLe as bs = true → charListLe bs cs = true →
    charListLe as cs = true
  | [], _, _ => by intro _ _; rfl
  | _ :: _, [], _ => by intro h _; cases h
  | _ :: _, _ :: _, [] => by intro _ h; cases h
  | a :: as, b :: bs, c :: cs => by
    intro h₁ h₂
    rcases lt_trichotomy a b with hab | hab | hab
    · rcases lt_trichotomy b c with hbc | hbc | hbc
      · simp [charListLe, lt_trans hab hbc]
      · subst hbc; simp [charListLe, hab]
      · simp [charListLe, hbc, lt_asymm hbc] at h₂
    · subst hab
      rcases lt_trichotomy a c with hac | hac | hac
      · simp [charListLe, hac]
      · subst hac
        simp only [charListLe, lt_irrefl, if_false] at h₁ h₂ ⊢
        exact charListLe_trans as bs cs h₁ h₂
      · simp [charListLe, hac, lt_asymm hac] at h₂
    · simp [charListLe, hab, lt_asymm hab] at h₁

instance : IsTotal String strLe :=
  ⟨fun a b => charListLe_total a.data b.data⟩

instance : IsAntisymm String strLe :=
  ⟨fun a b h₁ h₂ => by
    cases a; cases b
    exact congrArg String.mk (charListLe_antisymm _ _ h₁ h₂)⟩

instance : IsTrans String strLe :=
  ⟨fun a b c => charListLe_trans a.data b.data c.data⟩

/-- fnmatch suffix test: `s` matches `*<post>`. -/
def strEndsWith (s post : String) : Bool :=
  post.data.isSuffixOf s.data

/-- `pathlib.PurePath.stem`: the final component without its last suffix;
the suffix is `name[i:]` for the last dot index `i` with `0 < i < len - 1`. -/
def pathStem (name : String) : String :=
  let cs := name.data
  match ((List.range cs.length).filter fun i => decide (cs.getD i ' ' = '.')).getLast? with
  | some i => if 0 < i ∧ i < cs.length - 1 then ⟨cs.take i⟩ else name
  | none => name

/-- Mutable machine state: the ledger file (`none` when absent, otherwise the
parse outcome of its JSON content: the array of strings, or a corrupt-content
error), the output files written so far (later writes shadow earlier ones),
and the lines printed to stdout. -/
structure FS where
  ledgerFile : Option (Except String (List String))
  files : List (PathT × Bytes)
  log : List String
deriving DecidableEq, Repr

/-- Write (create or overwrite) the file at `p`. -/
def FS.write (fs : FS) (p : PathT) (b : Bytes) : FS :=
  { fs with files := (p, b) :: fs.files }

/-- Read the file at `p`, if present (`os.path.exists` is `(read _ _).isSome`). -/
def FS.read (fs : FS) (p : PathT) : Option Bytes :=
  (fs.files.find? fun e => decide (e.1 = p)).map (·.2)

/-- `print`: append one line to stdout. -/
def FS.put (fs : FS) (s : String) : FS :=
  { fs with log := fs.log ++ [s] }

/-- `PROCESSED_LOG_PATH = "processed_files.json"` (fixed, working-directory
relative; the `FS.ledgerFile` slot stands for this one path). -/
def PROCESSED_LOG_PATH : String := "processed_files.json"

/-- `load_processed_files`: if the ledger file exists, `set(json.load(f))` —
parse errors propagate; otherwise the empty set. -/
def load_processed_files (fs : FS) : Except String (Finset String) :=
  match fs.ledgerFile with
  | some (.ok arr) => .ok arr.toFinset
  | some (.error e) => .error e
  | none => .ok ∅

/-- `sorted` on the elements of a multiset of strings: well defined because
two sorted lists that are permutations of one another are equal. -/
def sortedElems (m : Multiset String) : List String :=
  Quot.liftOn m (List.insertionSort strLe) fun l₁ l₂ h =>
    List.eq_of_perm_of_sorted
      (((List.perm_insertionSort strLe l₁).trans h).trans
        (List.perm_insertionSort strLe l₂).symm)
      (List.sorted_insertionSort strLe l₁) (List.sorted_insertionSort strLe l₂)

/-- The serialized form written by `save_processed_files`:
`sorted(list(processed_set))`. -/
def serializeLedger (s : Finset String) : List String :=
  sortedElems s.val

/-- `save_processed_files`: overwrite the ledger file with the sorted JSON
array of the set's elements. -/
def save_processed_files (processed_set : Finset String) (fs : FS) : FS :=
  { fs with ledgerFile := some (.ok (serializeLedger processed_set)) }

/-- The set held by the persisted ledger file, when the file exists and its
content parses. -/
def persistedSet (fs : FS) : Option (Finset String) :=
  match fs.ledgerFile with
  | some (.ok arr) => some arr.toFinset
  | _ => none

/-- `SupportedPdfParseMethod` (magic_pdf enum): OCR-required vs direct text. -/
inductive SupportedPdfParseMethod
  | OCR
  | TXT
deriving DecidableEq, Repr

/-- Modelled from the spec: the opaque inference result produced by
`doc_analyze` (`infer_result`), consumed by the pipe step. -/
abbrev InferResult := Bytes

/-- Modelled from the spec: the result object (`pipe_result`) exposing the
artifact exports — layout/span debug renderings, markdown, content list and
intermediate JSON — each recorded here as the bytes the export writes. -/
structure PipeResult where
  layoutBytes : Bytes
  spansBytes : Bytes
  mdBytes : Bytes
  contentListBytes : Bytes
  middleBytes : Bytes
deriving DecidableEq, Repr

/-- Modelled from the spec: the external magic_pdf collaborator (code of this
repository not under `src/`), as an oracle. `read` is
`FileBasedDataReader.read` on the (static) input store; `classify` is
`PymuDocDataset.classify`; `doc_analyze b ocr` is `ds.apply(doc_analyze, ocr)`;
the two pipe steps turn an inference result into the result object. Any of
these may raise, modelled as `Except.error` with the diagnostic text. -/
structure Env where
  read : PathT → Except String Bytes
  classify : Bytes → Except String SupportedPdfParseMethod
  doc_analyze : Bytes → Bool → Except String InferResult
  pipe_ocr_mode : InferResult → Except String PipeResult
  pipe_txt_mode : InferResult → Except String PipeResult

/-- The diagnostic line printed when a worker fails on `name` with message
`e`: `[✗] 处理失败：{name}，错误信息：{e}`. -/
def diagMsg (name e : String) : String :=
  "[✗] 处理失败：" ++ name ++ "，错误信息：" ++ e

/-- The fallible prefix of the worker's `try` block: read the input bytes,
classify the document, and run the analysis/pipe pair the branch selects
(OCR mode vs text mode), yielding the result object or the first raised
exception. -/
def pipeOutcome (env : Env) (pdf_path : PathT) : Except String PipeResult :=
  match env.read pdf_path with
  | .error e => .error e
  | .ok pdf_bytes =>
    match env.classify pdf_bytes with
    | .error e => .error e
    | .ok m =>
      if m = SupportedPdfParseMethod.OCR then
        (env.doc_analyze pdf_bytes true).bind env.pipe_ocr_mode
      else
        (env.doc_analyze pdf_bytes false).bind env.pipe_txt_mode

/-- The body of the worker's `try` block: the fallible analysis prefix, then
the artifact writes (layout, spans, markdown, the centralized markdown copy
guarded by the existence check, content list, middle JSON). Returns the
state after the writes performed so far and the outcome (directory creation
is a no-op in this model). -/
def processBody (env : Env) (pdf_path : PathT) (output_root : String) (fs : FS) :
    FS × Except String Unit :=
  let name_without_extension := pathStem pdf_path.name
  let local_md_dir := osJoin output_root name_without_extension
  let markdown_collect_dir := osJoin output_root ("markdowns")
  match pipeOutcome env pdf_path with
  | .error e => (fs, .error e)
  | .ok pipe_result =>
    let fs := fs.write ⟨local_md_dir, name_without_extension ++ "_layout.pdf"⟩
      pipe_result.layoutBytes
    let fs := fs.write ⟨local_md_dir, name_without_extension ++ "_spans.pdf"⟩
      pipe_result.spansBytes
    let md_file_name := name_without_extension ++ ".md"
    let fs := fs.write ⟨local_md_dir, md_file_name⟩ pipe_result.mdBytes
    let fs :=
      match fs.read ⟨local_md_dir, md_file_name⟩ with
      | some b => fs.write ⟨markdown_collect_dir, md_file_name⟩ b
      | none => fs
    let fs := fs.write ⟨local_md_dir, name_without_extension ++ "_content_list.json"⟩
      pipe_result.contentListBytes
    let fs := fs.write ⟨local_md_dir, name_without_extension ++ "_middle.json"⟩
      pipe_result.middleBytes
    (fs, .ok ())

/-- `process_single_pdf`: run the body under the catch-all; on success return
the input file's name, on any exception print the diagnostic and return the
failure marker (`None`). -/
def process_single_pdf (env : Env) (args : PathT × String) (fs : FS) : FS × Option String :=
  match processBody env args.1 args.2 fs with
  | (fs', .ok _) => (fs', some args.1.name)
  | (fs', .error e) => (fs'.put (diagMsg args.1.name e), none)

/-- The error the worker body raises on this input, if any (a pure function
of the oracle: the fallible steps all precede the writes). -/
def taskBodyErr (env : Env) (pdf_path : PathT) : Option String :=
  match pipeOutcome env pdf_path with
  | .error e => some e
  | .ok _ => none

/-- The worker's result on a task, as a pure function of the oracle. -/
def taskResult (env : Env) (t : PathT × String) : Option String :=
  match taskBodyErr env t.1 with
  | some _ => none
  | none => some t.1.name

/-- A task: one input path paired with the output root (`task_args` element). -/
abbrev Task := PathT × String

/-- `Path(pdf_dir).glob("*.pdf")`: the entries of the (static) directory
listing directly inside `pdf_dir` whose final component matches `*.pdf`
(fnmatch: ends with `.pdf`); non-recursive. -/
def globPdf (disk : List PathT) (pdf_dir : String) : List PathT :=
  disk.filter fun p => decide (p.parent = pdf_dir) && strEndsWith p.name (".pdf")

/-- The progress line printed before the loop. -/
def countMsg (total done todo : Nat) : String :=
  "共找到 PDF 文件 " ++ toString total ++ " 个，其中已处理 " ++ toString done ++
    " 个，待处理 " ++ toString todo ++ " 个"

/-- The summary line printed after the loop. -/
def doneMsg (n : Nat) : String :=
  "\n🎉 全部处理完成，新增成功 " ++ toString n ++ " 个"

/-- The loop-carried state of `batch`: the in-memory `processed_files` set,
the `success_files` list, and the machine state. -/
structure LoopState where
  processed : Finset String
  success_files : List String
  fs : FS
deriving DecidableEq

/-- One iteration of the completion loop: run the worker on the next
completed task; on a success token, add it to the set, append it to
`success_files` and persist the ledger at once; on the failure marker do
nothing further. -/
def loopStep (env : Env) (st : LoopState) (t : Task) : LoopState :=
  match process_single_pdf env t st.fs with
  | (fs', some name) =>
    let processed' := insert name st.processed
    { processed := processed'
      success_files := st.success_files ++ [name]
      fs := save_processed_files processed' fs' }
  | (fs', none) => { st with fs := fs' }

/-- The completion loop over the tasks in completion order. -/
def runLoop (env : Env) (ts : List Task) (st : LoopState) : LoopState :=
  ts.foldl (loopStep env) st

/-- The tail of `batch` once the ledger is loaded and the tasks are built:
print the counts, drain the pool (tasks arrive in the completion order
`sched task_args`), print the summary, save the ledger one final time. -/
def runBatchTasks (env : Env) (sched : List Task → List Task)
    (processed_files : Finset String) (task_args : List Task)
    (totalFound : Nat) (fs : FS) : FS :=
  let fs := fs.put (countMsg totalFound processed_files.card task_args.length)
  let final := runLoop env (sched task_args) ⟨processed_files, [], fs⟩
  let fs := final.fs.put (doneMsg final.success_files.length)
  save_processed_files final.processed fs

/-- `batch`: enumerate `*.pdf` under `pdf_dir`, load the ledger (a corrupt
ledger propagates and aborts), filter out already-processed names, pair the
rest with the output root, and run the completion loop. `sched` stands for
the pool's completion order; `disk` is the static input listing. -/
def batch (env : Env) (sched : List Task → List Task) (disk : List PathT)
    (pdf_dir output_dir : String) (fs : FS) : Except String FS :=
  let all_pdf_paths := globPdf disk pdf_dir
  match load_processed_files fs with
  | .error e => .error e
  | .ok processed_files =>
    let unprocessed_paths := all_pdf_paths.filter fun p => decide (p.name ∉ processed_files)
    let task_args : List Task := unprocessed_paths.map fun p => (p, output_dir)
    .ok (runBatchTasks env sched processed_files task_args all_pdf_paths.length fs)

/-- The tasks `batch` submits to the pool (the `task_args` it builds), or the
propagated ledger error. -/
def dispatchedTasks (disk : List PathT) (pdf_dir output_dir : String) (fs : FS) :
    Except String (List Task) :=
  match load_processed_files fs with
  | .error e => .error e
  | .ok processed_files =>
    .ok (((globPdf disk pdf_dir).filter fun p => decide (p.name ∉ processed_files)).map
      fun p => (p, output_dir))

/-! ### Worker characterization -/

theorem processBody_cases (env : Env) (p : PathT) (out : String) (fs : FS) :
    (∃ e, taskBodyErr env p = some e ∧ processBody env p out fs = (fs, .error e)) ∨
      (taskBodyErr env p = none ∧ (processBody env p out fs).2 = .ok ()) := by
  unfold taskBodyErr processBody
  cases pipeOutcome env p with
  | error e => exact .inl ⟨e, rfl, rfl⟩
  | ok pipe_result => exact .inr ⟨rfl, rfl⟩

theorem process_single_pdf_spec (env : Env) (t : Task) (fs : FS) :
    (∃ e, taskBodyErr env t.1 = some e ∧
        process_single_pdf env t fs = (fs.put (diagMsg t.1.name e), none)) ∨
      (taskBodyErr env t.1 = none ∧
        process_single_pdf env t fs = ((processBody env t.1 t.2 fs).1, some t.1.name)) := by
  rcases processBody_cases env t.1 t.2 fs with ⟨e, he, hb⟩ | ⟨he, hb⟩
  · exact .inl ⟨e, he, by unfold process_single_pdf; rw [hb]⟩
  · refine .inr ⟨he, ?_⟩
    unfold process_single_pdf
    cases hpb : processBody env t.1 t.2 fs with
    | mk fs' r =>
      rw [hpb] at hb
      cases r with
      | error e => cases hb
      | ok u => rfl

theorem process_single_pdf_snd (env : Env) (t : Task) (fs : FS) :
    (process_single_pdf env t fs).2 = taskResult env t := by
  rcases process_single_pdf_spec env t fs with ⟨e, he, hp⟩ | ⟨he, hp⟩ <;>
    rw [hp] <;> unfold taskResult <;> rw [he]

theorem processBody_ledgerFile (env : Env) (p : PathT) (out : String) (fs : FS) :
    ((processBody env p out fs).1).ledgerFile = fs.ledgerFile := by
  unfold processBody
  cases pipeOutcome env p with
  | error e => rfl
  | ok pipe_result =>
    simp only [FS.write]
    split <;> rfl

theorem processBody_log (env : Env) (p : PathT) (out : String) (fs : FS) :
    ((processBody env p out fs).1).log = fs.log := by
  unfold processBody
  cases pipeOutcome env p with
  | error e => rfl
  | ok pipe_result =>
    simp only [FS.write]
    split <;> rfl

theorem process_single_pdf_ledgerFile (env : Env) (t : Task) (fs : FS) :
    ((process_single_pdf env t fs).1).ledgerFile = fs.ledgerFile := by
  rcases process_single_pdf_spec env t fs with ⟨e, _, hp⟩ | ⟨_, hp⟩ <;> rw [hp]
  · rfl
  · exact processBody_ledgerFile env t.1 t.2 fs

theorem process_single_pdf_log (env : Env) (t : Task) (fs : FS) :
    ((process_single_pdf env t fs).1).log = fs.log ∨
      ∃ e, taskBodyErr env t.1 = some e ∧
        ((process_single_pdf env t fs).1).log = fs.log ++ [diagMsg t.1.name e] := by
  rcases process_single_pdf_spec env t fs with ⟨e, he, hp⟩ | ⟨_, hp⟩
  · exact .inr ⟨e, he, by rw [hp]; rfl⟩
  · exact .inl (by rw [hp]; exact processBody_log env t.1 t.2 fs)

/-! ### Ledger serialization facts -/

theorem serializeLedger_coe (s : Finset String) :
    (↑(serializeLedger s) : Multiset String) = s.val := by
  cases s with
  | mk val nodup =>
    refine Quotient.inductionOn val (fun l _ => ?_) nodup
    exact Quot.sound (List.perm_insertionSort strLe l)

theorem serializeLedger_toFinset (s : Finset String) :
    (serializeLedger s).toFinset = s := by
  have h : Multiset.toFinset (↑(serializeLedger s)) = Multiset.toFinset s.val :=
    congrArg Multiset.toFinset (serializeLedger_coe s)
  exact h.trans (Finset.val_toFinset s)

theorem serializeLedger_sorted (s : Finset String) :
    List.Sorted strLe (serializeLedger s) := by
  cases s with
  | mk val nodup =>
    refine Quotient.inductionOn val (fun l _ => ?_) nodup
    exact List.sorted_insertionSort strLe l

theorem serializeLedger_nodup (s : Finset String) :
    (serializeLedger s).Nodup := by
  have h : (↑(serializeLedger s) : Multiset String).Nodup := by
    rw [serializeLedger_coe]; exact s.nodup
  exact h

theorem load_save (S : Finset String) (fs : FS) :
    load_processed_files (save_processed_files S fs) = .ok S := by
  unfold load_processed_files save_processed_files
  simp [serializeLedger_toFinset]

theorem persistedSet_save (S : Finset String) (fs : FS) :
    persistedSet (save_processed_files S fs) = some S := by
  unfold persistedSet save_processed_files
  simp [serializeLedger_toFinset]

/-! ### Completion-loop lemmas -/

theorem loopStep_of_none (env : Env) (st : LoopState) (t : Task)
    (h : taskResult env t = none) :
    loopStep env st t = { st with fs := (process_single_pdf env t st.fs).1 } := by
  unfold loopStep
  cases hp : process_single_pdf env t st.fs with
  | mk fs' r =>
    have hr : r = none := by
      have := process_single_pdf_snd env t st.fs
      rw [hp] at this
      exact this.trans h
    subst hr; rfl

theorem loopStep_of_some (env : Env) (st : LoopState) (t : Task) (n : String)
    (h : taskResult env t = some n) :
    loopStep env st t =
      ⟨insert n st.processed, st.success_files ++ [n],
        save_processed_files (insert n st.processed) (process_single_pdf env t st.fs).1⟩ := by
  unfold loopStep
  cases hp : process_single_pdf env t st.fs with
  | mk fs' r =>
    have hr : r = some n := by
      have := process_single_pdf_snd env t st.fs
      rw [hp] at this
      exact this.trans h
    subst hr; rfl

theorem runLoop_cons (env : Env) (t : Task) (ts : List Task) (st : LoopState) :
    runLoop env (t :: ts) st = runLoop env ts (loopStep env st t) := rfl

theorem runLoop_processed (env : Env) : ∀ (ts : List Task) (st : LoopState),
    (runLoop env ts st).processed =
      st.processed ∪ (ts.filterMap (taskResult env)).toFinset
  | [], st => by simp [runLoop]
  | t :: ts, st => by
    rw [runLoop_cons, runLoop_processed env ts]
    cases h : taskResult env t with
    | none =>
      rw [loopStep_of_none env st t h]
      simp [List.filterMap_cons, h]
    | some n =>
      rw [loopStep_of_some env st t n h]
      simp only [List.filterMap_cons, h, List.toFinset_cons]
      rw [Finset.union_insert, Finset.insert_union]

theorem runLoop_success_files (env : Env) : ∀ (ts : List Task) (st : LoopState),
    (runLoop env ts st).success_files =
      st.success_files ++ ts.filterMap (taskResult env)
  | [], st => by simp [runLoop]
  | t :: ts, st => by
    rw [runLoop_cons, runLoop_success_files env ts]
    cases h : taskResult env t with
    | none =>
      rw [loopStep_of_none env st t h]
      simp [List.filterMap_cons, h]
    | some n =>
      rw [loopStep_of_some env st t n h]
      simp [List.filterMap_cons, h]

/-- The durable-progress loop invariant: whenever the persisted ledger file
parses, it holds exactly the in-memory `processed_files` set. -/
theorem runLoop_ledger_inv (env : Env) : ∀ (ts : List Task) (st : LoopState),
    (∀ A, persistedSet st.fs = some A → A = st.processed) →
    ∀ A, persistedSet (runLoop env ts st).fs = some A → A = (runLoop env ts st).processed
  | [], st => fun h => h
  | t :: ts, st => by
    intro h
    rw [runLoop_cons]
    refine runLoop_ledger_inv env ts (loopStep env st t) ?_
    cases hr : taskResult env t with
    | none =>
      rw [loopStep_of_none env st t hr]
      intro A hA
      have hle : persistedSet (process_single_pdf env t st.fs).1 = persistedSet st.fs := by
        unfold persistedSet
        rw [process_single_pdf_ledgerFile]
      rw [hle] at hA
      exact h A hA
    | some n =>
      rw [loopStep_of_some env st t n hr]
      intro A hA
      rw [persistedSet_save] at hA
      cases hA
      rfl

/-! ### Small helper lemmas -/

theorem taskResult_cases (env : Env) (t : Task) :
    taskResult env t = none ∨ taskResult env t = some t.1.name := by
  unfold taskResult
  cases taskBodyErr env t.1 <;> simp

theorem taskResult_none_iff (env : Env) (t : Task) :
    taskResult env t = none ↔ ∃ e, taskBodyErr env t.1 = some e := by
  unfold taskResult
  cases taskBodyErr env t.1 <;> simp

theorem toFinset_eq_of_perm {α : Type} [DecidableEq α] {l₁ l₂ : List α}
    (h : l₁.Perm l₂) : l₁.toFinset = l₂.toFinset := by
  ext a
  simp [List.mem_toFinset, h.mem_iff]

theorem dispatchedTasks_of_load (disk : List PathT) (pdf_dir output_dir : String)
    (fs : FS) (S : Finset String) (h : load_processed_files fs = .ok S) :
    dispatchedTasks disk pdf_dir output_dir fs =
      .ok (((globPdf disk pdf_dir).filter fun p => decide (p.name ∉ S)).map
        fun p => (p, output_dir)) := by
  unfold dispatchedTasks
  rw [h]

theorem batch_of_load (env : Env) (sched : List Task → List Task) (disk : List PathT)
    (pdf_dir output_dir : String) (fs : FS) (S : Finset String)
    (h : load_processed_files fs = .ok S) :
    batch env sched disk pdf_dir output_dir fs =
      .ok (runBatchTasks env sched S
        (((globPdf disk pdf_dir).filter fun p => decide (p.name ∉ S)).map
          fun p => (p, output_dir))
        (globPdf disk pdf_dir).length fs) := by
  unfold batch
  rw [h]

theorem batch_ok_load (env : Env) (sched : List Task → List Task) (disk : List PathT)
    (pdf_dir output_dir : String) (fs fs' : FS)
    (h : batch env sched disk pdf_dir output_dir fs = .ok fs') :
    ∃ S, load_processed_files fs = .ok S := by
  cases hl : load_processed_files fs with
  | error e =>
    unfold batch at h
    rw [hl] at h
    cases h
  | ok S => exact ⟨S, rfl⟩

theorem runBatchTasks_eq (env : Env) (sched : List Task → List Task)
    (S : Finset String) (ts : List Task) (n : Nat) (fs : FS) :
    runBatchTasks env sched S ts n fs =
      save_processed_files
        (runLoop env (sched ts) ⟨S, [], fs.put (countMsg n S.card ts.length)⟩).processed
        ((runLoop env (sched ts) ⟨S, [], fs.put (countMsg n S.card ts.length)⟩).fs.put
          (doneMsg (runLoop env (sched ts)
            ⟨S, [], fs.put (countMsg n S.card ts.length)⟩).success_files.length)) := rfl

/-! ### Concrete instances used to exercise the definitions -/

/-- A concrete result object for the concrete oracles. -/
def pr0 : PipeResult := ⟨[0], [1], [2], [3], [4]⟩

/-- A concrete oracle on which every input succeeds. -/
def envOk : Env :=
  { read := fun _ => .ok []
    classify := fun _ => .ok .TXT
    doc_analyze := fun _ _ => .ok []
    pipe_ocr_mode := fun _ => .ok pr0
    pipe_txt_mode := fun _ => .ok pr0 }

/-- A concrete oracle whose classification step always raises. -/
def envBad : Env := { envOk with classify := fun _ => .error ("boom") }

/-- A concrete oracle that raises exactly on inputs named `b.pdf`. -/
def envFailB : Env :=
  { envOk with read := fun p => if p.name = "b.pdf" then .error ("corrupt") else .ok [] }

/-- An initially empty machine state (no ledger file, no files, no output). -/
def fs0 : FS := ⟨none, [], []⟩

/-- A machine state whose ledger file already records `a.pdf`. -/
def fsLedgerA : FS := ⟨some (.ok ["a.pdf"]), [], []⟩

/-- A one-file input directory. -/
def disk0 : List PathT := [⟨"in", "a.pdf"⟩]

/-- A two-file input directory. -/
def disk2 : List PathT := [⟨"in", "a.pdf"⟩, ⟨"in", "b.pdf"⟩]

/-- An input listing with a nested file and a non-PDF file. -/
def diskMix : List PathT := [⟨"in", "a.pdf"⟩, ⟨"in/sub", "c.pdf"⟩, ⟨"in", "notes.txt"⟩]

/-! ### C3 -/

/-- C3: Worker totality: for every task argument and machine state,
`process_single_pdf` either returns the input file's name (success) or
returns the failure marker `none` having appended a diagnostic line naming
the file; being a total function of its arguments, it propagates no
exception out of the worker boundary. -/
theorem process_single_pdf_totality (env : Env) (args : Task) (fs : FS) :
    (process_single_pdf env args fs).2 = some args.1.name ∨
      ((process_single_pdf env args fs).2 = none ∧
        ∃ e, ((process_single_pdf env args fs).1).log = fs.log ++ [diagMsg args.1.name e]) := by
  rcases process_single_pdf_spec env args fs with ⟨e, _, hp⟩ | ⟨_, hp⟩
  · right
    rw [hp]
    exact ⟨rfl, e, rfl⟩
  · left
    rw [hp]

/-! ### C4 -/

/-- C4: Ledger round-trip: saving any set `S` and then loading returns `S`;
every ledger file written by `save_processed_files` is the serialization of
the set as a sorted array without duplicates; and re-saving the loaded set
(`save(load(save(S)))`) writes the same file as saving `S` did. -/
theorem ledger_round_trip (S : Finset String) (fs fs' : FS) :
    load_processed_files (save_processed_files S fs) = .ok S ∧
    (save_processed_files S fs).ledgerFile = some (.ok (serializeLedger S)) ∧
    List.Sorted strLe (serializeLedger S) ∧
    (serializeLedger S).Nodup ∧
    (∀ S', load_processed_files (save_processed_files S fs) = .ok S' →
      save_processed_files S' fs' = save_processed_files S fs') := by
  refine ⟨load_save S fs, rfl, serializeLedger_sorted S, serializeLedger_nodup S, ?_⟩
  intro S' h
  rw [load_save S fs] at h
  cases h
  rfl

/-- C4 witness at a concrete two-element set. -/
theorem ledger_round_trip_witness :
    load_processed_files (save_processed_files (insert ("b.pdf") (insert ("a.pdf") ∅)) fs0) =
      .ok (insert ("b.pdf") (insert ("a.pdf") ∅)) ∧
    List.Sorted strLe (serializeLedger (insert ("b.pdf") (insert ("a.pdf") ∅))) ∧
    save_processed_files (insert ("b.pdf") (insert ("a.pdf") ∅)) fs0 =
      save_processed_files (insert ("b.pdf") (insert ("a.pdf") ∅)) fs0 :=
  ⟨(ledger_round_trip (insert ("b.pdf") (insert ("a.pdf") ∅)) fs0 fs0).1,
   (ledger_round_trip (insert ("b.pdf") (insert ("a.pdf") ∅)) fs0 fs0).2.2.1,
   (ledger_round_trip (insert ("b.pdf") (insert ("a.pdf") ∅)) fs0 fs0).2.2.2.2
     (insert ("b.pdf") (insert ("a.pdf") ∅))
     (ledger_round_trip (insert ("b.pdf") (insert ("a.pdf") ∅)) fs0 fs0).1⟩

/-! ### C7 -/

/-- C7: Ledger load contract: `load_processed_files` returns the empty set
when no ledger file exists, the parsed set when the file exists and its
JSON array parses, and propagates the error when the content is corrupt —
in which case `batch` aborts with that same error. -/
theorem load_processed_files_contract (fs : FS) :
    (fs.ledgerFile = none → load_processed_files fs = .ok ∅) ∧
    (∀ arr, fs.ledgerFile = some (.ok arr) →
      load_processed_files fs = .ok arr.toFinset) ∧
    (∀ e, fs.ledgerFile = some (.error e) →
      load_processed_files fs = .error e ∧
      ∀ env sched disk pdf_dir output_dir,
        batch env sched disk pdf_dir output_dir fs = .error e) := by
  refine ⟨fun h => ?_, fun arr h => ?_, fun e h => ?_⟩
  · unfold load_processed_files
    rw [h]
  · unfold load_processed_files
    rw [h]
  · have hl : load_processed_files fs = .error e := by
      unfold load_processed_files
      rw [h]
    refine ⟨hl, fun env sched disk pdf_dir output_dir => ?_⟩
    unfold batch
    rw [hl]

/-- C7 witness: the three cases at concrete states. -/
theorem load_processed_files_contract_witness :
    load_processed_files fs0 = .ok ∅ ∧
    load_processed_files fsLedgerA = .ok (["a.pdf"].toFinset) ∧
    batch envOk id disk0 ("in") ("out") ⟨some (.error ("bad json")), [], []⟩ =
      .error ("bad json") :=
  ⟨(load_processed_files_contract fs0).1 rfl,
   (load_processed_files_contract fsLedgerA).2.1 ["a.pdf"] rfl,
   ((load_processed_files_contract ⟨some (.error ("bad json")), [], []⟩).2.2
      ("bad json") rfl).2 envOk id disk0 ("in") ("out")⟩

/-! ### C6 -/

/-- C6: Dispatch filtering: with loaded ledger set `S`, the task list `batch`
submits is exactly one task per enumerated file whose name is not in `S`,
in enumeration order, each paired with the output root; a path is dispatched
iff it was enumerated and its name is not in `S`. -/
theorem batch_dispatch_filtering (env : Env) (sched : List Task → List Task)
    (disk : List PathT) (pdf_dir output_dir : String) (fs : FS) (S : Finset String)
    (h : load_processed_files fs = .ok S) :
    dispatchedTasks disk pdf_dir output_dir fs =
      .ok (((globPdf disk pdf_dir).filter fun p => decide (p.name ∉ S)).map
        fun p => (p, output_dir)) ∧
    batch env sched disk pdf_dir output_dir fs =
      .ok (runBatchTasks env sched S
        (((globPdf disk pdf_dir).filter fun p => decide (p.name ∉ S)).map
          fun p => (p, output_dir))
        (globPdf disk pdf_dir).length fs) ∧
    (∀ p : PathT,
      (p, output_dir) ∈ ((globPdf disk pdf_dir).filter fun p => decide (p.name ∉ S)).map
          (fun p => (p, output_dir)) ↔
        p ∈ globPdf disk pdf_dir ∧ p.name ∉ S) := by
  refine ⟨dispatchedTasks_of_load disk pdf_dir output_dir fs S h,
    batch_of_load env sched disk pdf_dir output_dir fs S h, fun p => ?_⟩
  simp only [List.mem_map, List.mem_filter, Prod.mk.injEq, decide_eq_true_eq, and_true]
  constructor
  · rintro ⟨q, ⟨hq, hqS⟩, rfl⟩
    exact ⟨hq, hqS⟩
  · rintro ⟨hp, hpS⟩
    exact ⟨p, ⟨hp, hpS⟩, rfl⟩

/-- C6 witness: with `a.pdf` already in the ledger, only `b.pdf` is
dispatched. -/
theorem batch_dispatch_filtering_witness :
    dispatchedTasks disk2 ("in") ("out") fsLedgerA = .ok [(⟨"in", "b.pdf"⟩, "out")] ∧
    ((⟨"in", "a.pdf"⟩ : PathT), "out") ∉
      ((globPdf disk2 ("in")).filter fun p =>
        decide (p.name ∉ (["a.pdf"] : List String).toFinset)).map fun p => (p, "out") := by
  have h := batch_dispatch_filtering envOk id disk2 ("in") ("out") fsLedgerA
    (["a.pdf"].toFinset) (by decide)
  refine ⟨h.1.trans (by decide), fun hmem => ?_⟩
  have := (h.2.2 ⟨"in", "a.pdf"⟩).mp hmem
  exact this.2 (by decide)

/-! ### C10 -/

theorem strEndsWith_iff (s post : String) :
    strEndsWith s post = true ↔ ∃ pre : String, s = pre ++ post := by
  unfold strEndsWith
  rw [List.isSuffixOf_iff_suffix]
  constructor
  · rintro ⟨t, ht⟩
    refine ⟨⟨t⟩, ?_⟩
    apply String.ext
    rw [String.data_append]
    exact ht.symm
  · rintro ⟨pre, rfl⟩
    exact ⟨pre.data, by rw [String.data_append]⟩

/-- C10: candidate enumeration is non-recursive and extension-restricted:
a path is enumerated iff it lies directly inside the input directory (its
parent is the input directory itself) and its final component matches
`*.pdf`; consequently every dispatched task's path does too. -/
theorem glob_enumeration (disk : List PathT) (pdf_dir : String) :
    (∀ p, p ∈ globPdf disk pdf_dir ↔
        p ∈ disk ∧ p.parent = pdf_dir ∧ ∃ pre : String, p.name = pre ++ (".pdf")) ∧
    (∀ output_dir fs ts, dispatchedTasks disk pdf_dir output_dir fs = .ok ts →
      ∀ t, t ∈ ts →
        t.1 ∈ disk ∧ t.1.parent = pdf_dir ∧
          (∃ pre : String, t.1.name = pre ++ (".pdf")) ∧ t.2 = output_dir) := by
  have hmem : ∀ p, p ∈ globPdf disk pdf_dir ↔
      p ∈ disk ∧ p.parent = pdf_dir ∧ ∃ pre : String, p.name = pre ++ (".pdf") := by
    intro p
    unfold globPdf
    simp only [List.mem_filter, Bool.and_eq_true, decide_eq_true_eq, strEndsWith_iff,
      and_assoc]
  refine ⟨hmem, fun output_dir fs ts hts t ht => ?_⟩
  obtain ⟨S, hS⟩ : ∃ S, load_processed_files fs = .ok S := by
    cases hl : load_processed_files fs with
    | error e =>
      unfold dispatchedTasks at hts
      rw [hl] at hts
      cases hts
    | ok S => exact ⟨S, rfl⟩
  rw [dispatchedTasks_of_load disk pdf_dir output_dir fs S hS] at hts
  injection hts with hts
  subst hts
  rw [List.mem_map] at ht
  obtain ⟨q, hq, rfl⟩ := ht
  rw [List.mem_filter] at hq
  have hg := (hmem q).mp hq.1
  exact ⟨hg.1, hg.2.1, hg.2.2, rfl⟩

/-- C10 witness: a nested `c.pdf` and a sibling `notes.txt` are not
enumerated, while the directory's own `a.pdf` is. -/
theorem glob_enumeration_witness :
    ((⟨"in", "a.pdf"⟩ : PathT) ∈ globPdf diskMix ("in")) ∧
    ((⟨"in/sub", "c.pdf"⟩ : PathT) ∉ globPdf diskMix ("in")) ∧
    ((⟨"in", "notes.txt"⟩ : PathT) ∉ globPdf diskMix ("in")) := by
  have h := (glob_enumeration diskMix ("in")).1
  refine ⟨(h ⟨"in", "a.pdf"⟩).mpr ⟨by decide, rfl, ⟨"a", by decide⟩⟩,
    fun hm => ?_, fun hm => ?_⟩
  · exact absurd ((h ⟨"in/sub", "c.pdf"⟩).mp hm).2.1 (by decide)
  · have h2 : strEndsWith ("notes.txt") (".pdf") = true :=
      (strEndsWith_iff ("notes.txt") (".pdf")).mpr ((h ⟨"in", "notes.txt"⟩).mp hm).2.2
    exact absurd h2 (by decide)

/-! ### C9 -/

/-- C9: every run of `batch` that completes writes the ledger file at the
end: the returned state's ledger file is the serialization of some set, and
when no tasks were dispatched at all it is the serialization of the very
set that was loaded. -/
theorem batch_final_save (env : Env) (sched : List Task → List Task) (disk : List PathT)
    (pdf_dir output_dir : String) (fs fs' : FS)
    (h : batch env sched disk pdf_dir output_dir fs = .ok fs') :
    (∃ P, fs'.ledgerFile = some (.ok (serializeLedger P)) ∧ persistedSet fs' = some P) ∧
    (∀ S₀, load_processed_files fs = .ok S₀ →
      dispatchedTasks disk pdf_dir output_dir fs = .ok [] → sched [] = [] →
      fs'.ledgerFile = some (.ok (serializeLedger S₀))) := by
  obtain ⟨S, hS⟩ := batch_ok_load env sched disk pdf_dir output_dir fs fs' h
  rw [batch_of_load env sched disk pdf_dir output_dir fs S hS] at h
  injection h with h
  subst h
  constructor
  · rw [runBatchTasks_eq]
    exact ⟨_, rfl, persistedSet_save _ _⟩
  · intro S₀ hS₀ hdisp hsched
    rw [hS] at hS₀
    injection hS₀ with hS₀
    subst hS₀
    rw [dispatchedTasks_of_load disk pdf_dir output_dir fs S hS] at hdisp
    injection hdisp with hdisp
    rw [runBatchTasks_eq, hdisp, hsched]
    rfl

/-- The result state of a completed run over an empty input listing. -/
def runEmptyResult : FS := ⟨some (.ok []), [], [countMsg 0 0 0, doneMsg 0]⟩

/-- C9 witness: a completed run that dispatched zero tasks still wrote the
ledger file (serializing the empty loaded set). -/
theorem batch_final_save_witness :
    runEmptyResult.ledgerFile = some (.ok (serializeLedger (∅ : Finset String))) :=
  (batch_final_save envOk id [] ("in") ("out") fs0 runEmptyResult (by decide)).2 ∅ rfl
    (by decide) rfl

/-! ### C2 -/

theorem persistedSet_of_load (fs : FS) (S : Finset String)
    (h : load_processed_files fs = .ok S) :
    persistedSet fs = none ∨ persistedSet fs = some S := by
  unfold load_processed_files at h
  cases hld : fs.ledgerFile with
  | none =>
    left
    unfold persistedSet
    rw [hld]
  | some x =>
    cases x with
    | ok arr =>
      rw [hld] at h
      right
      unfold persistedSet
      rw [hld]
      injection h with h
      show some arr.toFinset = some S
      rw [h]
    | error e =>
      rw [hld] at h
      cases h

theorem runLoop_take_succ (env : Env) (ts : List Task) (st : LoopState) (i : Nat)
    (hi : i < ts.length) :
    runLoop env (ts.take (i + 1)) st =
      loopStep env (runLoop env (ts.take i) st) (ts.get ⟨i, hi⟩) := by
  have h : ts.take (i + 1) = ts.take i ++ [ts.get ⟨i, hi⟩] := by
    rw [List.take_succ]
    simp [List.getElem?_eq_getElem hi]
  rw [h]
  unfold runLoop
  rw [List.foldl_append]
  rfl

theorem take_take_min {α : Type} : ∀ (i j : Nat) (l : List α),
    (l.take j).take i = l.take (min i j)
  | 0, j, l => by simp
  | i + 1, 0, l => by simp
  | i + 1, j + 1, [] => by simp
  | i + 1, j + 1, a :: l => by
    simp only [List.take_succ_cons, Nat.succ_min_succ]
    rw [take_take_min i j l]

/-- C2: incremental durable progress: after `batch` has handled the `i`-th
completed task, and before it handles the next one, if that task was
non-failed then the persisted ledger file is exactly the sorted
serialization of the set loaded at start union the success tokens collected
so far in the run; and along the run the persisted set only ever grows — no
entry is ever removed. -/
theorem batch_incremental_durable_progress (env : Env) (ts : List Task)
    (S₀ : Finset String) (fs₀ fs₁ : FS)
    (hload : load_processed_files fs₀ = .ok S₀)
    (hfs : fs₁.ledgerFile = fs₀.ledgerFile) :
    (∀ i (hi : i < ts.length) (n : String),
      taskResult env (ts.get ⟨i, hi⟩) = some n →
      (runLoop env (ts.take (i + 1)) ⟨S₀, [], fs₁⟩).fs.ledgerFile =
        some (.ok (serializeLedger (S₀ ∪
          ((ts.take (i + 1)).filterMap (taskResult env)).toFinset)))) ∧
    (∀ i j, i ≤ j → ∀ A B,
      persistedSet (runLoop env (ts.take i) ⟨S₀, [], fs₁⟩).fs = some A →
      persistedSet (runLoop env (ts.take j) ⟨S₀, [], fs₁⟩).fs = some B →
      A ⊆ B) := by
  have hinit : ∀ A, persistedSet fs₁ = some A →
      A = (⟨S₀, [], fs₁⟩ : LoopState).processed := by
    intro A hA
    have hps : persistedSet fs₁ = persistedSet fs₀ := by
      unfold persistedSet
      rw [hfs]
    rw [hps] at hA
    rcases persistedSet_of_load fs₀ S₀ hload with hp | hp
    · rw [hp] at hA; cases hA
    · rw [hp] at hA
      injection hA with hA
      exact hA.symm
  have hinv : ∀ (l : List Task) A,
      persistedSet (runLoop env l ⟨S₀, [], fs₁⟩).fs = some A →
      A = (runLoop env l ⟨S₀, [], fs₁⟩).processed :=
    fun l => runLoop_ledger_inv env l ⟨S₀, [], fs₁⟩ hinit
  constructor
  · intro i hi n hn
    have hins : insert n (runLoop env (ts.take i) ⟨S₀, [], fs₁⟩).processed =
        S₀ ∪ ((ts.take (i + 1)).filterMap (taskResult env)).toFinset := by
      rw [runLoop_processed]
      have htk : ts.take (i + 1) = ts.take i ++ [ts.get ⟨i, hi⟩] := by
        rw [List.take_succ]
        simp [List.getElem?_eq_getElem hi]
      rw [htk, List.filterMap_append, List.toFinset_append]
      simp only [List.filterMap_cons, hn, List.filterMap_nil]
      ext a
      simp only [Finset.mem_insert, Finset.mem_union, List.mem_toFinset,
        List.mem_singleton]
      tauto
    rw [runLoop_take_succ env ts ⟨S₀, [], fs₁⟩ i hi,
      loopStep_of_some env _ _ n hn, ← hins]
    rfl
  · intro i j hij A B hA hB
    have hA' := hinv (ts.take i) A hA
    have hB' := hinv (ts.take j) B hB
    rw [hA', hB', runLoop_processed, runLoop_processed]
    refine Finset.union_subset_union (Finset.Subset.refl S₀) ?_
    intro a ha
    rw [List.mem_toFinset, List.mem_filterMap] at ha ⊢
    obtain ⟨x, hx, hfx⟩ := ha
    refine ⟨x, ?_, hfx⟩
    have hxx : ts.take i = (ts.take j).take i := by
      rw [take_take_min, min_eq_left hij]
    rw [hxx] at hx
    exact List.take_subset i (ts.take j) hx

/-- C2 witness: one successful task, starting from no ledger file. -/
theorem batch_incremental_durable_progress_witness :
    (runLoop envOk ([((⟨"in", "a.pdf"⟩ : PathT), "out")].take (0 + 1))
        ⟨∅, [], fs0⟩).fs.ledgerFile =
      some (.ok (serializeLedger ((∅ : Finset String) ∪
        (([((⟨"in", "a.pdf"⟩ : PathT), "out")].take (0 + 1)).filterMap
          (taskResult envOk)).toFinset))) :=
  (batch_incremental_durable_progress envOk [(⟨"in", "a.pdf"⟩, "out")] ∅ fs0 fs0
      rfl rfl).1 0 (by decide) ("a.pdf") (by decide)

/-! ### C1 -/

/-- C1 counterexample: an unchanged input directory whose single file fails
analysis. The first run completes, and the second run's dispatch list is
the same singleton — not empty — so the worker runs on that file in both
runs, refuting the unconditional idempotence claim. -/
theorem batch_idempotence_cex :
    (batch envBad id disk0 ("in") ("out") fs0).toOption.map
        (fun fs₁ => dispatchedTasks disk0 ("in") ("out") fs₁) =
      some (.ok [(⟨"in", "a.pdf"⟩, "out")]) ∧
    (batch envBad id disk0 ("in") ("out") fs0).toOption.map
        (fun fs₁ => dispatchedTasks disk0 ("in") ("out") fs₁) ≠
      some (.ok ([] : List Task)) := ⟨by decide, by decide⟩

/-- C1 (amended): when every task dispatched by the first run succeeds, the
second run over the unchanged input listing dispatches zero tasks and
leaves the persisted ledger file unchanged; the success token the worker
returns is the file's name, exactly the key the dispatch filter checks
against the loaded ledger. (A failing input is dispatched again by the
second run, so the all-success hypothesis is necessary.) -/
theorem batch_idempotent_of_all_success (env : Env) (sched₁ : List Task → List Task)
    (disk : List PathT) (pdf_dir output_dir : String) (fs₀ fs₁ : FS) (ts₁ : List Task)
    (hts : dispatchedTasks disk pdf_dir output_dir fs₀ = .ok ts₁)
    (hperm : (sched₁ ts₁).Perm ts₁)
    (hall : ∀ t ∈ ts₁, taskResult env t ≠ none)
    (hrun : batch env sched₁ disk pdf_dir output_dir fs₀ = .ok fs₁) :
    (∀ t ∈ ts₁, taskResult env t = some t.1.name) ∧
    dispatchedTasks disk pdf_dir output_dir fs₁ = .ok [] ∧
    (∀ sched₂ fs₂, sched₂ [] = [] →
      batch env sched₂ disk pdf_dir output_dir fs₁ = .ok fs₂ →
      fs₂.ledgerFile = fs₁.ledgerFile) := by
  have htok : ∀ t ∈ ts₁, taskResult env t = some t.1.name := by
    intro t ht
    rcases taskResult_cases env t with h | h
    · exact absurd h (hall t ht)
    · exact h
  obtain ⟨S, hS⟩ : ∃ S, load_processed_files fs₀ = .ok S := by
    cases hl : load_processed_files fs₀ with
    | error e =>
      unfold dispatchedTasks at hts
      rw [hl] at hts
      cases hts
    | ok S => exact ⟨S, rfl⟩
  rw [dispatchedTasks_of_load disk pdf_dir output_dir fs₀ S hS] at hts
  injection hts with hts
  rw [batch_of_load env sched₁ disk pdf_dir output_dir fs₀ S hS] at hrun
  injection hrun with hrun
  rw [runBatchTasks_eq, hts] at hrun
  have hPr : (runLoop env (sched₁ ts₁)
      ⟨S, [], fs₀.put (countMsg (globPdf disk pdf_dir).length S.card ts₁.length)⟩).processed =
      S ∪ (ts₁.filterMap (taskResult env)).toFinset := by
    rw [runLoop_processed]
    exact congrArg (S ∪ ·) (toFinset_eq_of_perm (hperm.filterMap (taskResult env)))
  have hload₁ : load_processed_files fs₁ =
      .ok (S ∪ (ts₁.filterMap (taskResult env)).toFinset) := by
    rw [← hrun, load_save, hPr]
  have hnil : ((globPdf disk pdf_dir).filter fun p =>
      decide (p.name ∉ S ∪ (ts₁.filterMap (taskResult env)).toFinset)) = [] := by
    rw [List.filter_eq_nil_iff]
    intro p hp
    simp only [decide_eq_true_eq, Decidable.not_not]
    by_cases hpS : p.name ∈ S
    · exact Finset.mem_union_left _ hpS
    · have hmem : (p, output_dir) ∈ ts₁ := by
        rw [← hts, List.mem_map]
        exact ⟨p, List.mem_filter.mpr ⟨hp, by simp [hpS]⟩, rfl⟩
      refine Finset.mem_union_right _ (List.mem_toFinset.mpr ?_)
      exact List.mem_filterMap.mpr ⟨(p, output_dir), hmem, htok _ hmem⟩
  refine ⟨htok, ?_, ?_⟩
  · rw [dispatchedTasks_of_load disk pdf_dir output_dir fs₁ _ hload₁, hnil]
    rfl
  · intro sched₂ fs₂ hs₂ hrun₂
    rw [batch_of_load env sched₂ disk pdf_dir output_dir fs₁ _ hload₁] at hrun₂
    injection hrun₂ with hrun₂
    rw [runBatchTasks_eq, hnil] at hrun₂
    simp only [List.map_nil] at hrun₂
    rw [← hrun₂, hs₂, ← hrun, hPr]
    rfl

/-- The machine state after the all-success run of `batch` over `disk0`. -/
def run1Ok : FS :=
  ⟨some (.ok ["a.pdf"]),
   [(⟨"out/a", "a_middle.json"⟩, [4]), (⟨"out/a", "a_content_list.json"⟩, [3]),
    (⟨"out/markdowns", "a.md"⟩, [2]), (⟨"out/a", "a.md"⟩, [2]),
    (⟨"out/a", "a_spans.pdf"⟩, [1]), (⟨"out/a", "a_layout.pdf"⟩, [0])],
   [countMsg 1 0 1, doneMsg 1]⟩

/-- C1 witness (amended theorem): after the all-success run over `a.pdf`,
the second run's dispatch list is empty. -/
theorem batch_idempotent_of_all_success_witness :
    dispatchedTasks disk0 ("in") ("out") run1Ok = .ok [] :=
  (batch_idempotent_of_all_success envOk id disk0 ("in") ("out") fs0 run1Ok
      [(⟨"in", "a.pdf"⟩, "out")] (by decide) (List.Perm.refl _)
      (by decide) (by decide)).2.1

/-! ### C5 -/

theorem runBatchTasks_log (env : Env) (sched : List Task → List Task)
    (S : Finset String) (ts : List Task) (n : Nat) (fs : FS) :
    (runBatchTasks env sched S ts n fs).log =
      (runLoop env (sched ts) ⟨S, [], fs.put (countMsg n S.card ts.length)⟩).fs.log ++
        [doneMsg (runLoop env (sched ts)
          ⟨S, [], fs.put (countMsg n S.card ts.length)⟩).success_files.length] := rfl

theorem runBatchTasks_persisted (env : Env) (sched : List Task → List Task)
    (S : Finset String) (ts : List Task) (n : Nat) (fs : FS) :
    persistedSet (runBatchTasks env sched S ts n fs) =
      some (runLoop env (sched ts)
        ⟨S, [], fs.put (countMsg n S.card ts.length)⟩).processed := by
  rw [runBatchTasks_eq]
  exact persistedSet_save _ _

theorem loopStep_log_mem (env : Env) (st : LoopState) (t : Task) (m : String)
    (h : m ∈ st.fs.log) : m ∈ (loopStep env st t).fs.log := by
  rcases taskResult_cases env t with hr | hr
  · rw [loopStep_of_none env st t hr]
    rcases process_single_pdf_log env t st.fs with hl | ⟨e, _, hl⟩
    · show m ∈ (process_single_pdf env t st.fs).1.log
      rw [hl]; exact h
    · show m ∈ (process_single_pdf env t st.fs).1.log
      rw [hl]; exact List.mem_append_left _ h
  · rw [loopStep_of_some env st t _ hr]
    rcases process_single_pdf_log env t st.fs with hl | ⟨e, _, hl⟩
    · show m ∈ (process_single_pdf env t st.fs).1.log
      rw [hl]; exact h
    · show m ∈ (process_single_pdf env t st.fs).1.log
      rw [hl]; exact List.mem_append_left _ h

theorem runLoop_log_mem (env : Env) : ∀ (ts : List Task) (st : LoopState) (m : String),
    m ∈ st.fs.log → m ∈ (runLoop env ts st).fs.log
  | [], _, _ => fun h => h
  | t :: ts, st, m => fun h => by
    rw [runLoop_cons]
    exact runLoop_log_mem env ts (loopStep env st t) m (loopStep_log_mem env st t m h)

theorem runLoop_diag (env : Env) : ∀ (ts : List Task) (st : LoopState) (t : Task)
    (e : String), t ∈ ts → taskBodyErr env t.1 = some e →
    diagMsg t.1.name e ∈ (runLoop env ts st).fs.log
  | [], _, t, _ => fun ht _ => absurd ht (List.not_mem_nil t)
  | u :: ts, st, t, e => fun ht he => by
    rw [runLoop_cons]
    rcases List.mem_cons.mp ht with rfl | hmem
    · refine runLoop_log_mem env ts _ _ ?_
      have hres : taskResult env t = none := by
        unfold taskResult
        rw [he]
      rw [loopStep_of_none env st t hres]
      rcases process_single_pdf_spec env t st.fs with ⟨e', he', hp⟩ | ⟨he', hp⟩
      · have hee : e' = e := Option.some.inj (he'.symm.trans he)
        subst hee
        show diagMsg t.1.name e' ∈ (process_single_pdf env t st.fs).1.log
        rw [hp]
        exact List.mem_append_right _ (List.mem_singleton.mpr rfl)
      · rw [he'] at he
        cases he
    · exact runLoop_diag env ts (loopStep env st u) t e hmem he

/-- C5: failure isolation: over a fresh ledger and inputs of which exactly
one fails analysis, the run completes normally, the failing task was
dispatched exactly once (never retried within the run), the persisted set
afterwards is exactly the names of the other inputs (the failing name is
absent), its size is `N - 1`, and a diagnostic naming the failing file was
printed. -/
theorem batch_failure_isolation (env : Env) (sched : List Task → List Task)
    (disk : List PathT) (pdf_dir output_dir : String) (fs₀ : FS) (f : PathT)
    (ts : List Task)
    (hled : fs₀.ledgerFile = none)
    (hts : dispatchedTasks disk pdf_dir output_dir fs₀ = .ok ts)
    (hperm : (sched ts).Perm ts)
    (hnames : ((globPdf disk pdf_dir).map PathT.name).Nodup)
    (hf : f ∈ globPdf disk pdf_dir)
    (hfail : taskResult env (f, output_dir) = none)
    (hok : ∀ p ∈ globPdf disk pdf_dir, p ≠ f →
      taskResult env (p, output_dir) = some p.name) :
    ((f, output_dir) ∈ ts ∧ ts.Nodup) ∧
    (∃ fs₁, batch env sched disk pdf_dir output_dir fs₀ = .ok fs₁) ∧
    (∀ fs₁, batch env sched disk pdf_dir output_dir fs₀ = .ok fs₁ →
      persistedSet fs₁ =
        some (((globPdf disk pdf_dir).map PathT.name).toFinset \ {f.name}) ∧
      (((globPdf disk pdf_dir).map PathT.name).toFinset \ {f.name}).card =
        (globPdf disk pdf_dir).length - 1 ∧
      ∃ e, diagMsg f.name e ∈ fs₁.log) := by
  have hload : load_processed_files fs₀ = .ok ∅ := by
    unfold load_processed_files
    rw [hled]
  rw [dispatchedTasks_of_load disk pdf_dir output_dir fs₀ ∅ hload] at hts
  injection hts with hts
  have hfilter : ((globPdf disk pdf_dir).filter fun p =>
      decide (p.name ∉ (∅ : Finset String))) = globPdf disk pdf_dir :=
    List.filter_eq_self.mpr fun a _ => by simp
  rw [hfilter] at hts
  have hglobnd : (globPdf disk pdf_dir).Nodup := List.Nodup.of_map _ hnames
  have htsnd : ts.Nodup := by
    rw [← hts]
    exact hglobnd.map fun a b hab => congrArg Prod.fst hab
  have hmemts : (f, output_dir) ∈ ts := by
    rw [← hts]
    exact List.mem_map.mpr ⟨f, hf, rfl⟩
  have hbatch := batch_of_load env sched disk pdf_dir output_dir fs₀ ∅ hload
  rw [hfilter, hts] at hbatch
  refine ⟨⟨hmemts, htsnd⟩, ⟨_, hbatch⟩, ?_⟩
  intro fs₁ hrun
  rw [hbatch] at hrun
  injection hrun with hrun
  have hP : (runLoop env (sched ts) ⟨∅, [],
      fs₀.put (countMsg (globPdf disk pdf_dir).length (∅ : Finset String).card
        ts.length)⟩).processed = (ts.filterMap (taskResult env)).toFinset := by
    rw [runLoop_processed, Finset.empty_union]
    exact toFinset_eq_of_perm (hperm.filterMap (taskResult env))
  have hset : (ts.filterMap (taskResult env)).toFinset =
      ((globPdf disk pdf_dir).map PathT.name).toFinset \ {f.name} := by
    rw [← hts, List.filterMap_map]
    ext a
    simp only [List.mem_toFinset, List.mem_filterMap, Finset.mem_sdiff,
      Finset.mem_singleton, List.mem_map, Function.comp_apply]
    constructor
    · rintro ⟨p, hp, hres⟩
      by_cases hpf : p = f
      · subst hpf
        rw [hfail] at hres
        cases hres
      · rw [hok p hp hpf] at hres
        injection hres with hres
        subst hres
        refine ⟨⟨p, hp, rfl⟩, fun hEq => ?_⟩
        exact hpf (List.inj_on_of_nodup_map hnames hp hf hEq)
    · rintro ⟨⟨p, hp, rfl⟩, hne⟩
      have hpf : p ≠ f := fun hEq => hne (by rw [hEq])
      exact ⟨p, hp, hok p hp hpf⟩
  have hfmem : f.name ∈ ((globPdf disk pdf_dir).map PathT.name).toFinset :=
    List.mem_toFinset.mpr (List.mem_map.mpr ⟨f, hf, rfl⟩)
  refine ⟨?_, ?_, ?_⟩
  · rw [← hrun, runBatchTasks_persisted, hP, hset]
  · rw [Finset.card_sdiff (Finset.singleton_subset_iff.mpr hfmem),
      Finset.card_singleton, List.toFinset_card_of_nodup hnames, List.length_map]
  · obtain ⟨e, he⟩ := (taskResult_none_iff env (f, output_dir)).mp hfail
    refine ⟨e, ?_⟩
    rw [← hrun, runBatchTasks_log]
    exact List.mem_append_left _
      (runLoop_diag env (sched ts) _ (f, output_dir) e (hperm.mem_iff.mpr hmemts) he)

/-- The machine state after the mixed run over `disk2` where `b.pdf` fails. -/
def run2Mixed : FS :=
  ⟨some (.ok ["a.pdf"]),
   [(⟨"out/a", "a_middle.json"⟩, [4]), (⟨"out/a", "a_content_list.json"⟩, [3]),
    (⟨"out/markdowns", "a.md"⟩, [2]), (⟨"out/a", "a.md"⟩, [2]),
    (⟨"out/a", "a_spans.pdf"⟩, [1]), (⟨"out/a", "a_layout.pdf"⟩, [0])],
   [countMsg 2 0 2, diagMsg ("b.pdf") ("corrupt"), doneMsg 1]⟩

/-- C5 witness: over `a.pdf` (succeeds) and `b.pdf` (fails), the completed
run persists exactly the other name and the entry count is `N - 1`. -/
theorem batch_failure_isolation_witness :
    persistedSet run2Mixed =
      some (((globPdf disk2 ("in")).map PathT.name).toFinset \ {"b.pdf"}) ∧
    (((globPdf disk2 ("in")).map PathT.name).toFinset \ {"b.pdf"}).card =
      (globPdf disk2 ("in")).length - 1 := by
  have h := (batch_failure_isolation envFailB id disk2 ("in") ("out") fs0
      ⟨"in", "b.pdf"⟩ [(⟨"in", "a.pdf"⟩, "out"), (⟨"in", "b.pdf"⟩, "out")]
      rfl (by decide) (List.Perm.refl _) (by decide) (by decide) (by decide)
      (by decide)).2.2 run2Mixed (by decide)
  exact ⟨h.1, h.2.1⟩

/-! ### C8 -/

theorem FS.read_write_self (fs : FS) (p : PathT) (b : Bytes) :
    (fs.write p b).read p = some b := by
  unfold FS.write FS.read
  simp

theorem FS.read_write_ne (fs : FS) (p q : PathT) (b : Bytes) (h : q ≠ p) :
    (fs.write p b).read q = fs.read q := by
  unfold FS.write FS.read
  simp [Ne.symm h]

theorem strAppend_right_ne (s : String) {a b : String} (h : a ≠ b) :
    s ++ a ≠ s ++ b := by
  intro he
  apply h
  apply String.ext
  have hd := congrArg String.data he
  rw [String.data_append, String.data_append] at hd
  exact List.append_cancel_left hd

theorem pathT_ne_of_name_ne {p q : PathT} (h : p.name ≠ q.name) : p ≠ q :=
  fun he => h (congrArg PathT.name he)

theorem read_write_name_ne (fs : FS) (pa qa : String) {pn qn : String} (b : Bytes)
    (h : qn ≠ pn) : (fs.write ⟨pa, pn⟩ b).read ⟨qa, qn⟩ = fs.read ⟨qa, qn⟩ :=
  FS.read_write_ne fs ⟨pa, pn⟩ ⟨qa, qn⟩ b fun he => h (congrArg PathT.name he)

/-- C8: output completeness on success: when the worker returns the success
token for input `p`, the token is `p.name`, the per-file output directory
holds the markdown, layout, spans, content-list and middle artifacts, and
the centralized copy under `markdowns` holds exactly the bytes of the
per-file markdown. -/
theorem worker_output_completeness (env : Env) (p : PathT) (output_root : String)
    (fs fs' : FS) (tok : String)
    (h : process_single_pdf env (p, output_root) fs = (fs', some tok)) :
    tok = p.name ∧
    (fs'.read ⟨osJoin output_root (pathStem p.name), pathStem p.name ++ ".md"⟩).isSome ∧
    fs'.read ⟨osJoin output_root ("markdowns"), pathStem p.name ++ ".md"⟩ =
      fs'.read ⟨osJoin output_root (pathStem p.name), pathStem p.name ++ ".md"⟩ ∧
    (fs'.read ⟨osJoin output_root (pathStem p.name),
      pathStem p.name ++ "_layout.pdf"⟩).isSome ∧
    (fs'.read ⟨osJoin output_root (pathStem p.name),
      pathStem p.name ++ "_spans.pdf"⟩).isSome ∧
    (fs'.read ⟨osJoin output_root (pathStem p.name),
      pathStem p.name ++ "_content_list.json"⟩).isSome ∧
    (fs'.read ⟨osJoin output_root (pathStem p.name),
      pathStem p.name ++ "_middle.json"⟩).isSome := by
  rcases process_single_pdf_spec env (p, output_root) fs with ⟨e, he, hp⟩ | ⟨he, hp⟩
  · rw [hp] at h
    injection h with h1 h2
    cases h2
  · rw [hp] at h
    injection h with h1 h2
    injection h2 with h2
    subst h1
    obtain ⟨pr, hpo⟩ : ∃ pr, pipeOutcome env p = .ok pr := by
      unfold taskBodyErr at he
      cases hq : pipeOutcome env p with
      | error e => rw [hq] at he; cases he
      | ok pr => exact ⟨pr, rfl⟩
    have hbody : (processBody env p output_root fs).1 =
        (((((fs.write ⟨osJoin output_root (pathStem p.name),
            pathStem p.name ++ "_layout.pdf"⟩ pr.layoutBytes).write
          ⟨osJoin output_root (pathStem p.name),
            pathStem p.name ++ "_spans.pdf"⟩ pr.spansBytes).write
          ⟨osJoin output_root (pathStem p.name),
            pathStem p.name ++ ".md"⟩ pr.mdBytes).write
          ⟨osJoin output_root ("markdowns"),
            pathStem p.name ++ ".md"⟩ pr.mdBytes).write
          ⟨osJoin output_root (pathStem p.name),
            pathStem p.name ++ "_content_list.json"⟩ pr.contentListBytes).write
          ⟨osJoin output_root (pathStem p.name),
            pathStem p.name ++ "_middle.json"⟩ pr.middleBytes := by
      unfold processBody
      rw [hpo]
      simp only [FS.read_write_self]
    rw [hbody]
    have hSrc : ((((((fs.write ⟨osJoin output_root (pathStem p.name),
            pathStem p.name ++ "_layout.pdf"⟩ pr.layoutBytes).write
          ⟨osJoin output_root (pathStem p.name),
            pathStem p.name ++ "_spans.pdf"⟩ pr.spansBytes).write
          ⟨osJoin output_root (pathStem p.name),
            pathStem p.name ++ ".md"⟩ pr.mdBytes).write
          ⟨osJoin output_root ("markdowns"),
            pathStem p.name ++ ".md"⟩ pr.mdBytes).write
          ⟨osJoin output_root (pathStem p.name),
            pathStem p.name ++ "_content_list.json"⟩ pr.contentListBytes).write
          ⟨osJoin output_root (pathStem p.name),
            pathStem p.name ++ "_middle.json"⟩ pr.middleBytes).read
          ⟨osJoin output_root (pathStem p.name), pathStem p.name ++ ".md"⟩ =
        some pr.mdBytes := by
      rw [read_write_name_ne _ _ _ _ (strAppend_right_ne _ (by decide)),
        read_write_name_ne _ _ _ _ (strAppend_right_ne _ (by decide))]
      by_cases hdm : (⟨osJoin output_root ("markdowns"),
          pathStem p.name ++ ".md"⟩ : PathT) =
          ⟨osJoin output_root (pathStem p.name), pathStem p.name ++ ".md"⟩
      · rw [← hdm, FS.read_write_self]
      · rw [FS.read_write_ne _ _ _ _ (fun hEq => hdm hEq.symm), FS.read_write_self]
    have hDst : ((((((fs.write ⟨osJoin output_root (pathStem p.name),
            pathStem p.name ++ "_layout.pdf"⟩ pr.layoutBytes).write
          ⟨osJoin output_root (pathStem p.name),
            pathStem p.name ++ "_spans.pdf"⟩ pr.spansBytes).write
          ⟨osJoin output_root (pathStem p.name),
            pathStem p.name ++ ".md"⟩ pr.mdBytes).write
          ⟨osJoin output_root ("markdowns"),
            pathStem p.name ++ ".md"⟩ pr.mdBytes).write
          ⟨osJoin output_root (pathStem p.name),
            pathStem p.name ++ "_content_list.json"⟩ pr.contentListBytes).write
          ⟨osJoin output_root (pathStem p.name),
            pathStem p.name ++ "_middle.json"⟩ pr.middleBytes).read
          ⟨osJoin output_root ("markdowns"), pathStem p.name ++ ".md"⟩ =
        some pr.mdBytes := by
      rw [read_write_name_ne _ _ _ _ (strAppend_right_ne _ (by decide)),
        read_write_name_ne _ _ _ _ (strAppend_right_ne _ (by decide)),
        FS.read_write_self]
    refine ⟨h2.symm, ?_, ?_, ?_, ?_, ?_, ?_⟩
    · rw [hSrc]
      rfl
    · rw [hDst, hSrc]
    · rw [read_write_name_ne _ _ _ _ (strAppend_right_ne _ (by decide)),
        read_write_name_ne _ _ _ _ (strAppend_right_ne _ (by decide)),
        read_write_name_ne _ _ _ _ (strAppend_right_ne _ (by decide)),
        read_write_name_ne _ _ _ _ (strAppend_right_ne _ (by decide)),
        read_write_name_ne _ _ _ _ (strAppend_right_ne _ (by decide)),
        FS.read_write_self]
      rfl
    · rw [read_write_name_ne _ _ _ _ (strAppend_right_ne _ (by decide)),
        read_write_name_ne _ _ _ _ (strAppend_right_ne _ (by decide)),
        read_write_name_ne _ _ _ _ (strAppend_right_ne _ (by decide)),
        read_write_name_ne _ _ _ _ (strAppend_right_ne _ (by decide)),
        FS.read_write_self]
      rfl
    · rw [read_write_name_ne _ _ _ _ (strAppend_right_ne _ (by decide)),
        FS.read_write_self]
      rfl
    · rw [FS.read_write_self]
      rfl

/-- The machine state written by a successful worker run from the empty
state. -/
def workerOutFS : FS :=
  ⟨none,
   [(⟨"out/a", "a_middle.json"⟩, [4]), (⟨"out/a", "a_content_list.json"⟩, [3]),
    (⟨"out/markdowns", "a.md"⟩, [2]), (⟨"out/a", "a.md"⟩, [2]),
    (⟨"out/a", "a_spans.pdf"⟩, [1]), (⟨"out/a", "a_layout.pdf"⟩, [0])],
   []⟩

/-- C8 witness: a concrete successful worker run produced the per-file
markdown and its byte-identical centralized copy. -/
theorem worker_output_completeness_witness :
    (workerOutFS.read ⟨osJoin ("out") (pathStem ("a.pdf")),
      pathStem ("a.pdf") ++ ".md"⟩).isSome ∧
    workerOutFS.read ⟨osJoin ("out") ("markdowns"), pathStem ("a.pdf") ++ ".md"⟩ =
      workerOutFS.read ⟨osJoin ("out") (pathStem ("a.pdf")),
        pathStem ("a.pdf") ++ ".md"⟩ := by
  have h := worker_output_completeness envOk ⟨"in", "a.pdf"⟩ ("out") fs0 workerOutFS
    ("a.pdf") (by decide)
  exact ⟨h.2.1, h.2.2.1⟩

end Yuanjian
